import Mathlib

/-!
A shallow embedding of the log-structured key-value store in
`src/project-2/src/lib.rs` (`KvStore`), together with proofs about its
claims.

Modelling choices:
* Rust's `BTreeMap` is modelled by an association list (`List (κ × ν)`)
  with lookup/insert/erase that keep at most one binding per key;
  map equality in statements is extensional (equality of `mlookup`).
* A segment file on disk is a list of `Item`s: either a well-formed
  bincode-encoded transaction (`Item.tx`), or undecodable junk bytes.
  Junk comes in two flavours mirroring the error classification in
  `KvStore::open` (`e.to_string().contains("EOF") || .. "failed to fill
  whole buffer"`): `junkEof` is a truncated trailing record whose decode
  fails with an end-of-stream error, `junkBad` is malformed data whose
  decode fails with any other error.  Byte sizes follow bincode's format
  (4-byte enum tag, 8-byte length prefix per string field, then the
  UTF-8 bytes), so file offsets in the model are the real byte offsets.
* The directory is an association list from segment id (`file_index`,
  a `u32` modelled as `ℕ`) to segment file, kept sorted by id, which is
  the canonical representation of a directory as a finite map; `open`'s
  `BTreeSet`-sorted iteration is then iteration over this list.
* `IoFailure`s of the underlying file system are not modelled (every
  file operation succeeds); claims quantify over successful calls.
-/

/-- Association-list lookup; model of `BTreeMap::get`. -/
def mlookup {κ ν : Type} [DecidableEq κ] (k : κ) : List (κ × ν) → Option ν
  | [] => none
  | (a, b) :: rest => if a = k then some b else mlookup k rest

/-- Association-list insert-or-replace; model of `BTreeMap::insert`. -/
def minsert {κ ν : Type} [DecidableEq κ] (k : κ) (v : ν) : List (κ × ν) → List (κ × ν)
  | [] => [(k, v)]
  | (a, b) :: rest => if a = k then (k, v) :: rest else (a, b) :: minsert k v rest

/-- Association-list erase; model of `BTreeMap::remove`. -/
def merase {κ ν : Type} [DecidableEq κ] (k : κ) : List (κ × ν) → List (κ × ν)
  | [] => []
  | (a, b) :: rest => if a = k then rest else (a, b) :: merase k rest

/-- Model of `map.entry(k).and_modify(|c| *c += 1).or_insert(1)`. -/
def bump {κ : Type} [DecidableEq κ] (k : κ) : List (κ × ℕ) → List (κ × ℕ)
  | [] => [(k, 1)]
  | (a, c) :: rest => if a = k then (a, c + 1) :: rest else (a, c) :: bump k rest

/-- Model of `map.entry(k).or_insert(0)`. -/
def ensure {κ : Type} [DecidableEq κ] (k : κ) : List (κ × ℕ) → List (κ × ℕ)
  | [] => [(k, 0)]
  | (a, c) :: rest => if a = k then (a, c) :: rest else (a, c) :: ensure k rest

/-- Maximum key of a `ℕ`-keyed map; model of `map.keys().max()`. -/
def keysMax? {ν : Type} : List (ℕ × ν) → Option ℕ
  | [] => none
  | (k, _) :: rest =>
      some (match keysMax? rest with
            | none => k
            | some m => max k m)

/-- A log record; model of `enum Transaction { Set(String, String), Remove(String) }`. -/
inductive Transaction : Type
  | Set (key value : String)
  | Remove (key : String)
deriving DecidableEq

/-- Encoded byte size of a transaction under bincode's default format:
a 4-byte variant tag, then for each string field an 8-byte length prefix
followed by the string's UTF-8 bytes. -/
def encSize : Transaction → ℕ
  | .Set k v => 4 + (8 + k.utf8ByteSize) + (8 + v.utf8ByteSize)
  | .Remove k => 4 + (8 + k.utf8ByteSize)

/-- One span of bytes in a segment file: a decodable encoded transaction,
or junk bytes on which `bincode::deserialize_from` fails.  `junkEof n` is
a truncated record of `n + 1` bytes (decode fails with an end-of-stream
error: message contains "EOF" / "failed to fill whole buffer");
`junkBad n` is `n + 1` malformed bytes (decode fails with any other
error). -/
inductive Item : Type
  | tx (t : Transaction)
  | junkEof (n : ℕ)
  | junkBad (n : ℕ)
deriving DecidableEq

/-- Byte size of an item.  Junk spans are nonempty, so every item has
positive size. -/
def itemSize : Item → ℕ
  | .tx t => encSize t
  | .junkEof n => n + 1
  | .junkBad n => n + 1

/-- A segment file's content. -/
abbrev SegFile := List Item

/-- Byte length of a segment file; model of `fs::metadata(path).len()`
and of `file.seek(SeekFrom::End(0))`. -/
def fileLen (f : SegFile) : ℕ := (f.map itemSize).sum

/-- The backing directory: segment id (`u32` file stem) ↦ file content,
kept sorted by id (the canonical representation of a directory). -/
abbrev Disk := List (ℕ × SegFile)

/-- Sorted insert-or-replace into the directory. -/
def sinsert (k : ℕ) (f : SegFile) : Disk → Disk
  | [] => [(k, f)]
  | (a, g) :: rest =>
      if k < a then (k, f) :: (a, g) :: rest
      else if k = a then (k, f) :: rest
      else (a, g) :: sinsert k f rest

/-- How a single `bincode::deserialize_from` fails: `eof` when the
remaining bytes are insufficient (message contains "EOF" or "failed to
fill whole buffer"), `bad` for every other decode failure. -/
inductive DecodeErr : Type
  | eof
  | bad
deriving DecidableEq

/-- Decode one transaction at byte offset `off` of a segment file; model
of seeking to `off` and running `bincode::deserialize_from` once.
Reading at the exact end of the data fails with an end-of-stream error;
reading from the middle of an encoded span yields malformed bytes. -/
def decodeAt : SegFile → ℕ → Except DecodeErr Transaction
  | [], _ => .error .eof
  | item :: rest, off =>
      if off = 0 then
        match item with
        | .tx t => .ok t
        | .junkEof _ => .error .eof
        | .junkBad _ => .error .bad
      else if off < itemSize item then .error .bad
      else decodeAt rest (off - itemSize item)

/-- Model of `CustomError` in `src/project-2/src/error.rs`.  Payloads
irrelevant to the claims are dropped; `Bincode` keeps the decode-error
classification. -/
inductive CustomError : Type
  | Io
  | KeyNotFound
  | Serde
  | Bincode (e : DecodeErr)
  | BoxedError
deriving DecidableEq

/-- Result of a call that can also `panic!`: `ok` and `err` are the two
sides of Rust's `Result`, `panicked` is an uncatchable panic. -/
inductive Outcome (α : Type) : Type
  | ok (a : α)
  | err (e : CustomError)
  | panicked (msg : String)
deriving DecidableEq

/-- The in-memory part of `struct KvStore`: `storage` is the Index
(key ↦ (file number, offset)), `folder_path` the owned directory path,
`files` the StaleCount (file number ↦ expired-key count). -/
structure KvStoreM : Type where
  storage : List (String × (ℕ × ℕ))
  folderPath : String
  files : List (ℕ × ℕ)
deriving DecidableEq

/-- A store together with its backing directory contents. -/
structure Sys : Type where
  store : KvStoreM
  disk : Disk
deriving DecidableEq

/-- The segment id `KvStore::set` writes to: the active (highest tracked)
file index, or `active + 1` when the active file's byte length has
reached the 1000-byte rollover threshold (`if file_size >= 1000`).
A missing active file has length 0 (`metadata(..).map(|m| m.len()).unwrap_or(0)`). -/
def setTargetIndex (files : List (ℕ × ℕ)) (d : Disk) : ℕ :=
  let active := (keysMax? files).getD 0
  let fileSize := fileLen ((mlookup active d).getD [])
  if fileSize ≥ 1000 then active + 1 else active

/-- Model of `KvStore::get_next_file_index`:
`files.keys().max().map(|&max| max + 1).unwrap_or(0)`. -/
def nextFileIndex (files : List (ℕ × ℕ)) : ℕ :=
  match keysMax? files with
  | none => 0
  | some m => m + 1

/-- Model of `KvStore::set` (lib.rs lines 134–182).  The append targets
`setTargetIndex`; the recorded offset is the target file's pre-write
byte length (`file.seek(SeekFrom::End(0))`); then the old binding's file
gets its stale count bumped, the Index is updated, and the target id is
ensured present in `files`. -/
def KvStore_set (s : KvStoreM) (d : Disk) (key value : String) : KvStoreM × Disk :=
  let fidx := setTargetIndex s.files d
  let f := (mlookup fidx d).getD []
  let pos := fileLen f
  let d' := sinsert fidx (f ++ [Item.tx (.Set key value)]) d
  let files' :=
    match mlookup key s.storage with
    | some (oldIdx, _) => bump oldIdx s.files
    | none => s.files
  let storage' := minsert key (fidx, pos) s.storage
  let files'' := ensure fidx files'
  (⟨storage', s.folderPath, files''⟩, d')

/-- Model of `KvStore::get` (lib.rs lines 186–213).  Missing key is
`Ok(None)`; a present key opens the recorded file (a missing file is an
`Io` error), seeks to the recorded offset and decodes one transaction;
a decoded `Remove` hits the `panic!` arm. -/
def KvStore_get (s : KvStoreM) (d : Disk) (key : String) : Outcome (Option String) :=
  match mlookup key s.storage with
  | some (fileIndex, offset) =>
      match mlookup fileIndex d with
      | none => .err .Io
      | some f =>
          match decodeAt f offset with
          | .ok (.Set _ value) => .ok (some value)
          | .ok (.Remove _) =>
              .panicked "Invalid state: Remove transaction found for a valid key"
          | .error e => .err (.Bincode e)
  | none => .ok none

/-- Model of `KvStore::remove` (lib.rs lines 217–248).  A missing key
fails with `KeyNotFound`; a present key appends a `Remove` record to the
file numbered `get_next_file_index()`, bumps the stale count of the
key's previous file, and erases the key from the Index. -/
def KvStore_remove (s : KvStoreM) (d : Disk) (key : String) :
    Except CustomError (KvStoreM × Disk) :=
  match mlookup key s.storage with
  | some (fileIndex, _) =>
      let newIdx := nextFileIndex s.files
      let f := (mlookup newIdx d).getD []
      let d' := sinsert newIdx (f ++ [Item.tx (.Remove key)]) d
      let files' := bump fileIndex s.files
      let storage' := merase key s.storage
      .ok (⟨storage', s.folderPath, files'⟩, d')
  | none => .error .KeyNotFound

/-- The `Ok(transaction)` arm of the replay loop of `KvStore::open`
(lib.rs lines 85–110): a decoded `Set` bumps the overwritten binding's
file and re-points the Index at `(fidx, pos)`; a decoded `Remove` bumps
and erases an existing binding (and is itself never indexed). -/
def replayStep (fidx pos : ℕ) (st : List (String × (ℕ × ℕ)) × List (ℕ × ℕ)) :
    Transaction → List (String × (ℕ × ℕ)) × List (ℕ × ℕ)
  | .Set key _ =>
      let files' :=
        match mlookup key st.1 with
        | some (oldIdx, _) => bump oldIdx st.2
        | none => st.2
      (minsert key (fidx, pos) st.1, files')
  | .Remove key =>
      match mlookup key st.1 with
      | some (oldIdx, _) => (merase key st.1, bump oldIdx st.2)
      | none => st

/-- The replay loop of `KvStore::open` for one segment file (lib.rs
lines 82–121): starting at offset `pos`, repeatedly record the position
and decode one transaction; an end-of-stream decode failure breaks out
of the loop cleanly, any other decode failure aborts with that error. -/
def replayItems (fidx : ℕ) (st : List (String × (ℕ × ℕ)) × List (ℕ × ℕ)) :
    SegFile → ℕ → Except DecodeErr (List (String × (ℕ × ℕ)) × List (ℕ × ℕ))
  | [], _ => .ok st
  | .junkEof _ :: _, _ => .ok st
  | .junkBad _ :: _, _ => .error .bad
  | .tx t :: rest, pos => replayItems fidx (replayStep fidx pos st t) rest (pos + encSize t)

/-- Replay every segment of the directory in ascending id order,
threading the Index and StaleCount. -/
def replayDisk (st : List (String × (ℕ × ℕ)) × List (ℕ × ℕ)) :
    Disk → Except DecodeErr (List (String × (ℕ × ℕ)) × List (ℕ × ℕ))
  | [] => .ok st
  | (fidx, f) :: rest =>
      match replayItems fidx st f 0 with
      | .ok st' => replayDisk st' rest
      | .error e => .error e

/-- Model of `KvStore::open` (lib.rs lines 46–129): collect the segment
ids, process them in ascending order from empty Index/StaleCount, and
return the populated store (a non-end-of-stream decode failure
propagates as a `Bincode` error). -/
def KvStore_open (path : String) (d : Disk) : Except CustomError KvStoreM :=
  match replayDisk ([], []) d with
  | .ok (storage, files) => .ok ⟨storage, path, files⟩
  | .error e => .error (.Bincode e)

/-- One API call issued to an open store. -/
inductive Op : Type
  | set (k v : String)
  | remove (k : String)
deriving DecidableEq

/-- The key an operation touches. -/
def opKey : Op → String
  | .set k _ => k
  | .remove k => k

/-- `KvStore::set` as a step on a store-plus-directory pair. -/
def setSys (s : Sys) (k v : String) : Sys :=
  let (m, d) := KvStore_set s.store s.disk k v
  ⟨m, d⟩

/-- `KvStore::remove` as a step on a store-plus-directory pair. -/
def removeSys (s : Sys) (k : String) : Except CustomError Sys :=
  match KvStore_remove s.store s.disk k with
  | .ok (m, d) => .ok ⟨m, d⟩
  | .error e => .error e

/-- `KvStore::get` as a step on a store-plus-directory pair: the receiver
is `&self`, so the state comes back unchanged alongside the outcome. -/
def getSys (s : Sys) (k : String) : Outcome (Option String) × Sys :=
  (KvStore_get s.store s.disk k, s)

/-- Run one operation. -/
def runOp (s : Sys) : Op → Except CustomError Sys
  | .set k v => .ok (setSys s k v)
  | .remove k => removeSys s k

/-- Run a sequence of operations, stopping at the first failure. -/
def runOps (s : Sys) : List Op → Except CustomError Sys
  | [] => .ok s
  | op :: ops =>
      match runOp s op with
      | .ok s' => runOps s' ops
      | .error e => .error e

/-- The store obtained by opening an (initially) empty directory
(`KvStore_open "d" [] = .ok init0.store` holds by computation). -/
def init0 : Sys := ⟨⟨[], "d", []⟩, []⟩

/-- The key `k` is indexed and its Index entry resolves, on disk, to a
`Set k v` record: the offset stored for `k` decodes to exactly that
record inside the stored segment. -/
def IndexReads (s : Sys) (k v : String) : Prop :=
  ∃ fi off f, mlookup k s.store.storage = some (fi, off) ∧
    mlookup fi s.disk = some f ∧ decodeAt f off = .ok (.Set k v)

/-- Every stale count recorded in the map is at least 1. -/
def PosVals (m : List (ℕ × ℕ)) : Prop :=
  ∀ i c, mlookup i m = some c → 1 ≤ c

/-- Append one item (e.g. a truncated partial record) to the
highest-numbered (last) segment of the directory. -/
def appendTailLast : Disk → Item → Disk
  | [], _ => []
  | (i, f) :: rest, it =>
      match rest with
      | [] => [(i, f ++ [it])]
      | _ :: _ => (i, f) :: appendTailLast rest it

/-- The concrete reachable state after `set "a" "1"` on a store opened
over an empty directory (`setSys init0 "a" "1" = sysA` by computation):
key "a" is indexed at segment 0 offset 0, StaleCount tracks segment 0
with count 0, and segment file 0 holds the one `Set` record. -/
def sysA : Sys :=
  ⟨⟨[("a", (0, 0))], "d", [(0, 0)]⟩, [(0, [.tx (.Set "a" "1")])]⟩

/-! ### Association-list map lemmas -/

theorem mlookup_eq_none {κ ν : Type} [DecidableEq κ] {k : κ} {m : List (κ × ν)}
    (h : k ∉ m.map Prod.fst) : mlookup k m = none := by
  induction m with
  | nil => rfl
  | cons p rest ih =>
      obtain ⟨a, b⟩ := p
      simp only [List.map_cons, List.mem_cons] at h
      push_neg at h
      simp [mlookup, Ne.symm h.1, ih h.2]

theorem mlookup_minsert_self {κ ν : Type} [DecidableEq κ] (k : κ) (v : ν) (m : List (κ × ν)) :
    mlookup k (minsert k v m) = some v := by
  induction m with
  | nil => simp [minsert, mlookup]
  | cons p rest ih =>
      obtain ⟨a, b⟩ := p
      by_cases h : a = k
      · simp [minsert, mlookup, h]
      · simp [minsert, mlookup, h, ih]

theorem mlookup_minsert_ne {κ ν : Type} [DecidableEq κ] {a k : κ} (v : ν) (m : List (κ × ν))
    (h : a ≠ k) : mlookup a (minsert k v m) = mlookup a m := by
  induction m with
  | nil => simp [minsert, mlookup, Ne.symm h]
  | cons p rest ih =>
      obtain ⟨x, y⟩ := p
      by_cases hx : x = k
      · subst hx
        simp [minsert, mlookup, Ne.symm h]
      · simp only [minsert, if_neg hx]
        by_cases ha : x = a
        · subst ha
          simp [mlookup]
        · simp [mlookup, ha, ih]

theorem mlookup_merase_ne {κ ν : Type} [DecidableEq κ] {a k : κ} (m : List (κ × ν))
    (h : a ≠ k) : mlookup a (merase k m) = mlookup a m := by
  induction m with
  | nil => rfl
  | cons p rest ih =>
      obtain ⟨x, y⟩ := p
      by_cases hx : x = k
      · subst hx
        simp [merase, mlookup, Ne.symm h]
      · simp only [merase, if_neg hx]
        by_cases ha : x = a
        · subst ha
          simp [mlookup]
        · simp [mlookup, ha, ih]

theorem mlookup_merase_self {κ ν : Type} [DecidableEq κ] (k : κ) (m : List (κ × ν))
    (hnd : (m.map Prod.fst).Nodup) : mlookup k (merase k m) = none := by
  induction m with
  | nil => rfl
  | cons p rest ih =>
      obtain ⟨a, b⟩ := p
      simp only [List.map_cons, List.nodup_cons] at hnd
      by_cases h : a = k
      · subst h
        simp only [merase, if_pos rfl]
        exact mlookup_eq_none hnd.1
      · simp [merase, mlookup, h, ih hnd.2]

theorem mlookup_bump_self {κ : Type} [DecidableEq κ] (k : κ) (m : List (κ × ℕ)) :
    mlookup k (bump k m) = some ((mlookup k m).getD 0 + 1) := by
  induction m with
  | nil => simp [bump, mlookup]
  | cons p rest ih =>
      obtain ⟨a, c⟩ := p
      by_cases h : a = k
      · simp [bump, mlookup, h]
      · simp [bump, mlookup, h, ih]

theorem mlookup_bump_ne {κ : Type} [DecidableEq κ] {a k : κ} (m : List (κ × ℕ))
    (h : a ≠ k) : mlookup a (bump k m) = mlookup a m := by
  induction m with
  | nil => simp [bump, mlookup, Ne.symm h]
  | cons p rest ih =>
      obtain ⟨x, c⟩ := p
      by_cases hx : x = k
      · subst hx
        simp [bump, mlookup, Ne.symm h]
      · simp only [bump, if_neg hx]
        by_cases ha : x = a
        · subst ha
          simp [mlookup]
        · simp [mlookup, ha, ih]

theorem mlookup_ensure_self {κ : Type} [DecidableEq κ] (k : κ) (m : List (κ × ℕ)) :
    mlookup k (ensure k m) = some ((mlookup k m).getD 0) := by
  induction m with
  | nil => simp [ensure, mlookup]
  | cons p rest ih =>
      obtain ⟨a, c⟩ := p
      by_cases h : a = k
      · simp [ensure, mlookup, h]
      · simp [ensure, mlookup, h, ih]

theorem mlookup_sinsert_self (k : ℕ) (f : SegFile) (d : Disk) :
    mlookup k (sinsert k f d) = some f := by
  induction d with
  | nil => simp [sinsert, mlookup]
  | cons p rest ih =>
      obtain ⟨a, g⟩ := p
      by_cases hlt : k < a
      · simp [sinsert, mlookup, hlt]
      · by_cases heq : k = a
        · simp [sinsert, mlookup, hlt, heq]
        · have : a ≠ k := fun h => heq h.symm
          simp [sinsert, mlookup, hlt, heq, this, ih]

theorem mlookup_sinsert_ne {a k : ℕ} (f : SegFile) (d : Disk)
    (h : a ≠ k) : mlookup a (sinsert k f d) = mlookup a d := by
  induction d with
  | nil => simp [sinsert, mlookup, Ne.symm h]
  | cons p rest ih =>
      obtain ⟨x, g⟩ := p
      by_cases hlt : k < x
      · simp [sinsert, mlookup, hlt, Ne.symm h]
      · by_cases heq : k = x
        · subst heq
          simp [sinsert, mlookup, hlt, Ne.symm h]
        · simp only [sinsert, if_neg hlt, if_neg heq]
          by_cases ha : x = a
          · subst ha
            simp [mlookup]
          · simp [mlookup, ha, ih]

theorem keysMax?_bound {ν : Type} {i : ℕ} {c : ν} {m : List (ℕ × ν)}
    (h : mlookup i m = some c) : ∃ M, keysMax? m = some M ∧ i ≤ M := by
  induction m with
  | nil => simp [mlookup] at h
  | cons p rest ih =>
      obtain ⟨k, v⟩ := p
      by_cases hk : k = i
      · subst hk
        refine ⟨_, rfl, ?_⟩
        cases hr : keysMax? rest with
        | none => simp
        | some m' => simp [hr, le_max_iff]
      · simp only [mlookup, if_neg hk] at h
        obtain ⟨M, hM, hle⟩ := ih h
        exact ⟨max k M, by simp [keysMax?, hM], le_trans hle (le_max_right _ _)⟩

/-! ### Codec lemmas -/

theorem itemSize_pos (it : Item) : 0 < itemSize it := by
  cases it with
  | tx t => cases t <;> simp [itemSize, encSize]
  | junkEof n => simp [itemSize]
  | junkBad n => simp [itemSize]

theorem fileLen_nil : fileLen [] = 0 := rfl

theorem fileLen_cons (it : Item) (rest : SegFile) :
    fileLen (it :: rest) = itemSize it + fileLen rest := by
  simp [fileLen]

/-- Decoding at the 0-based byte offset that is the length of a prefix
yields exactly the record appended right after that prefix. -/
theorem decodeAt_append_tx (f : SegFile) (t : Transaction) (l : List Item) :
    decodeAt (f ++ .tx t :: l) (fileLen f) = .ok t := by
  induction f with
  | nil => simp [decodeAt, fileLen]
  | cons it rest ih =>
      have hpos := itemSize_pos it
      rw [List.cons_append, fileLen_cons]
      simp only [decodeAt]
      rw [if_neg (by omega), if_neg (by omega), Nat.add_sub_cancel_left]
      exact ih

/-- A successful decode is unaffected by bytes appended later. -/
theorem decodeAt_append_of_ok {f : SegFile} {off : ℕ} {t : Transaction} (l : List Item)
    (h : decodeAt f off = .ok t) : decodeAt (f ++ l) off = .ok t := by
  induction f generalizing off with
  | nil => simp [decodeAt] at h
  | cons it rest ih =>
      rw [List.cons_append]
      simp only [decodeAt] at h ⊢
      by_cases h0 : off = 0
      · rw [if_pos h0] at h ⊢
        cases it <;> simp_all
      · rw [if_neg h0] at h ⊢
        by_cases hlt : off < itemSize it
        · rw [if_pos hlt] at h
          exact absurd h (by simp)
        · rw [if_neg hlt] at h ⊢
          exact ih h

/-! ### Characterizations of the write paths -/

/-- `setSys` spelled out: the `Set` record is appended to the
`setTargetIndex` segment at that file's pre-write length, the old
binding's segment is bumped, the Index re-pointed, and the target id
ensured present in the StaleCount. -/
theorem setSys_eq (s : Sys) (k v : String) :
    setSys s k v =
      ⟨⟨minsert k (setTargetIndex s.store.files s.disk,
            fileLen ((mlookup (setTargetIndex s.store.files s.disk) s.disk).getD []))
          s.store.storage,
        s.store.folderPath,
        ensure (setTargetIndex s.store.files s.disk)
          (match mlookup k s.store.storage with
           | some (oldIdx, _) => bump oldIdx s.store.files
           | none => s.store.files)⟩,
       sinsert (setTargetIndex s.store.files s.disk)
         (((mlookup (setTargetIndex s.store.files s.disk) s.disk).getD []) ++
           [.tx (.Set k v)])
         s.disk⟩ := rfl

/-- `removeSys` on a present key spelled out: the `Remove` record goes
to the end of segment `nextFileIndex`, the key's previous segment is
bumped, and the key is erased from the Index. -/
theorem removeSys_eq (s : Sys) (k : String) (fi off : ℕ)
    (h : mlookup k s.store.storage = some (fi, off)) :
    removeSys s k = .ok
      ⟨⟨merase k s.store.storage, s.store.folderPath, bump fi s.store.files⟩,
       sinsert (nextFileIndex s.store.files)
         (((mlookup (nextFileIndex s.store.files) s.disk).getD []) ++
           [.tx (.Remove k)])
         s.disk⟩ := by
  simp only [removeSys, KvStore_remove, h]

/-- `removeSys` on an absent key fails with `KeyNotFound`. -/
theorem removeSys_none (s : Sys) (k : String)
    (h : mlookup k s.store.storage = none) :
    removeSys s k = .error .KeyNotFound := by
  simp only [removeSys, KvStore_remove, h]

/-- Inversion: a successful `removeSys` call found its key and produced
exactly the state of `removeSys_eq`. -/
theorem removeSys_ok_inv {s s' : Sys} {k : String}
    (h : removeSys s k = .ok s') :
    ∃ fi off, mlookup k s.store.storage = some (fi, off) ∧
      s' = ⟨⟨merase k s.store.storage, s.store.folderPath, bump fi s.store.files⟩,
            sinsert (nextFileIndex s.store.files)
              (((mlookup (nextFileIndex s.store.files) s.disk).getD []) ++
                [.tx (.Remove k)])
              s.disk⟩ := by
  cases hm : mlookup k s.store.storage with
  | none => rw [removeSys_none s k hm] at h; exact absurd h (by simp)
  | some pr =>
      obtain ⟨fi, off⟩ := pr
      rw [removeSys_eq s k fi off hm] at h
      exact ⟨fi, off, rfl, by injection h with h; exact h.symm⟩

/-! ### Index-resolution lemmas (claim C3) -/

/-- A resolving Index entry makes `get` return the stored value. -/
theorem indexReads_get {s : Sys} {k v : String} (h : IndexReads s k v) :
    KvStore_get s.store s.disk k = .ok (some v) := by
  obtain ⟨fi, off, f, h1, h2, h3⟩ := h
  simp only [KvStore_get, h1, h2, h3]

/-- Right after `set k v`, the Index entry for `k` resolves to the
freshly appended `Set k v` record. -/
theorem indexReads_setSys_self (s : Sys) (k v : String) :
    IndexReads (setSys s k v) k v := by
  rw [setSys_eq]
  refine ⟨setTargetIndex s.store.files s.disk,
    fileLen ((mlookup (setTargetIndex s.store.files s.disk) s.disk).getD []),
    ((mlookup (setTargetIndex s.store.files s.disk) s.disk).getD []) ++ [.tx (.Set k v)],
    ?_, ?_, ?_⟩
  · exact mlookup_minsert_self ..
  · exact mlookup_sinsert_self ..
  · exact decodeAt_append_tx _ _ []

/-- A `set` of a different key preserves resolution of `k`'s entry. -/
theorem indexReads_setSys_other {s : Sys} {k v : String} (k' v' : String)
    (hne : k' ≠ k) (h : IndexReads s k v) : IndexReads (setSys s k' v') k v := by
  obtain ⟨fi, off, f, h1, h2, h3⟩ := h
  rw [setSys_eq]
  by_cases htgt : fi = setTargetIndex s.store.files s.disk
  · rw [htgt] at h1 h2
    refine ⟨setTargetIndex s.store.files s.disk, off, f ++ [.tx (.Set k' v')], ?_, ?_, ?_⟩
    · rw [mlookup_minsert_ne _ _ (fun hh => hne hh.symm)]
      exact h1
    · rw [h2]
      exact mlookup_sinsert_self ..
    · exact decodeAt_append_of_ok _ h3
  · refine ⟨fi, off, f, ?_, ?_, h3⟩
    · rw [mlookup_minsert_ne _ _ (fun hh => hne hh.symm)]
      exact h1
    · rw [mlookup_sinsert_ne _ _ htgt]
      exact h2

/-- A successful `remove` of a different key preserves resolution of
`k`'s entry. -/
theorem indexReads_removeSys_other {s s' : Sys} {k v : String} (k' : String)
    (hne : k' ≠ k) (hop : removeSys s k' = .ok s') (h : IndexReads s k v) :
    IndexReads s' k v := by
  obtain ⟨fi, off, f, h1, h2, h3⟩ := h
  obtain ⟨fi', off', hm, rfl⟩ := removeSys_ok_inv hop
  by_cases htgt : fi = nextFileIndex s.store.files
  · rw [htgt] at h1 h2
    refine ⟨nextFileIndex s.store.files, off, f ++ [.tx (.Remove k')], ?_, ?_, ?_⟩
    · rw [mlookup_merase_ne _ (fun hh => hne hh.symm)]
      exact h1
    · rw [h2]
      exact mlookup_sinsert_self ..
    · exact decodeAt_append_of_ok _ h3
  · refine ⟨fi, off, f, ?_, ?_, h3⟩
    · rw [mlookup_merase_ne _ (fun hh => hne hh.symm)]
      exact h1
    · rw [mlookup_sinsert_ne _ _ htgt]
      exact h2

/-- Resolution of `k`'s entry survives any successful run of operations
that never touches `k`. -/
theorem indexReads_runOps {k v : String} :
    ∀ (ops : List Op) (s s' : Sys), runOps s ops = .ok s' →
      (∀ op ∈ ops, opKey op ≠ k) → IndexReads s k v → IndexReads s' k v := by
  intro ops
  induction ops with
  | nil =>
      intro s s' h _ hir
      simp only [runOps] at h
      cases h
      exact hir
  | cons op rest ih =>
      intro s s' h hops hir
      simp only [runOps] at h
      cases hop : runOp s op with
      | error e => rw [hop] at h; exact absurd h (by simp)
      | ok s1 =>
          rw [hop] at h
          have hk : opKey op ≠ k := hops op (List.mem_cons_self _ _)
          have hrest : ∀ o ∈ rest, opKey o ≠ k := fun o ho => hops o (List.mem_cons_of_mem _ ho)
          refine ih s1 s' h hrest ?_
          cases op with
          | set k' v' =>
              have hs1 : s1 = setSys s k' v' := by
                simp only [runOp] at hop
                injection hop with hop
                exact hop.symm
              rw [hs1]
              exact indexReads_setSys_other k' v' hk hir
          | remove k' =>
              exact indexReads_removeSys_other k' hk hop hir

/-! ### StaleCount positivity during replay (claim C4) -/

theorem posVals_bump {m : List (ℕ × ℕ)} (k : ℕ) (h : PosVals m) : PosVals (bump k m) := by
  intro i c hc
  by_cases hik : i = k
  · subst hik
    rw [mlookup_bump_self] at hc
    injection hc with hc
    omega
  · rw [mlookup_bump_ne m hik] at hc
    exact h i c hc

theorem posVals_replayStep {st : List (String × (ℕ × ℕ)) × List (ℕ × ℕ)}
    (fidx pos : ℕ) (t : Transaction) (h : PosVals st.2) :
    PosVals (replayStep fidx pos st t).2 := by
  cases t with
  | Set key value =>
      simp only [replayStep]
      cases hm : mlookup key st.1 with
      | none => simpa using h
      | some pr =>
          obtain ⟨oldIdx, o⟩ := pr
          simpa using posVals_bump oldIdx h
  | Remove key =>
      simp only [replayStep]
      cases hm : mlookup key st.1 with
      | none => simpa using h
      | some pr =>
          obtain ⟨oldIdx, o⟩ := pr
          simpa using posVals_bump oldIdx h

theorem posVals_replayItems :
    ∀ (items : SegFile) (fidx : ℕ) st pos st',
      replayItems fidx st items pos = .ok st' → PosVals st.2 → PosVals st'.2 := by
  intro items
  induction items with
  | nil =>
      intro fidx st pos st' h hp
      simp only [replayItems] at h
      cases h
      exact hp
  | cons it rest ih =>
      intro fidx st pos st' h hp
      cases it with
      | tx t =>
          simp only [replayItems] at h
          exact ih fidx _ _ st' h (posVals_replayStep fidx pos t hp)
      | junkEof n =>
          simp only [replayItems] at h
          cases h
          exact hp
      | junkBad n =>
          simp only [replayItems] at h
          exact absurd h (by simp)

theorem posVals_replayDisk :
    ∀ (d : Disk) st st', replayDisk st d = .ok st' → PosVals st.2 → PosVals st'.2 := by
  intro d
  induction d with
  | nil =>
      intro st st' h hp
      simp only [replayDisk] at h
      cases h
      exact hp
  | cons p rest ih =>
      obtain ⟨fidx, f⟩ := p
      intro st st' h hp
      simp only [replayDisk] at h
      cases hr : replayItems fidx st f 0 with
      | error e => rw [hr] at h; exact absurd h (by simp)
      | ok st1 =>
          rw [hr] at h
          exact ih st1 st' h (posVals_replayItems f fidx st 0 st1 hr hp)

/-! ### Truncation and corruption during replay (claim C8) -/

/-- A truncated partial record at the end of a segment is skipped: the
replay loop stops there cleanly and produces the same state. -/
theorem replayItems_append_junkEof (n : ℕ) :
    ∀ (items : SegFile) (fidx : ℕ) st pos,
      replayItems fidx st (items ++ [.junkEof n]) pos = replayItems fidx st items pos := by
  intro items
  induction items with
  | nil => intro fidx st pos; rfl
  | cons it rest ih =>
      intro fidx st pos
      cases it with
      | tx t =>
          simp only [List.cons_append, replayItems]
          exact ih ..
      | junkEof m => rfl
      | junkBad m => rfl

/-- Appending a truncated partial record to the last segment leaves the
whole replay unchanged. -/
theorem replayDisk_appendTailLast_junkEof (n : ℕ) :
    ∀ (d : Disk) st,
      replayDisk st (appendTailLast d (.junkEof n)) = replayDisk st d := by
  intro d
  induction d with
  | nil => intro st; rfl
  | cons p rest ih =>
      obtain ⟨i, f⟩ := p
      intro st
      cases rest with
      | nil =>
          simp only [appendTailLast, replayDisk]
          rw [replayItems_append_junkEof]
      | cons q rest' =>
          simp only [appendTailLast, replayDisk]
          cases hr : replayItems i st f 0 with
          | ok st' => exact ih st'
          | error e => rfl

/-- Looking up a segment after appending an item to the last segment:
the file is unchanged or got the item appended. -/
theorem mlookup_appendTailLast {d : Disk} {i : ℕ} {f : SegFile} (it : Item)
    (h : mlookup i d = some f) :
    mlookup i (appendTailLast d it) = some f ∨
      mlookup i (appendTailLast d it) = some (f ++ [it]) := by
  induction d with
  | nil => exact absurd h (by simp [mlookup])
  | cons p rest ih =>
      obtain ⟨a, g⟩ := p
      cases rest with
      | nil =>
          simp only [appendTailLast]
          simp only [mlookup] at h ⊢
          by_cases ha : a = i
          · rw [if_pos ha] at h ⊢
            injection h with h
            right
            rw [h]
          · rw [if_neg ha] at h
            exact absurd h (by simp [mlookup])
      | cons q rest' =>
          simp only [appendTailLast]
          simp only [mlookup] at h ⊢
          by_cases ha : a = i
          · rw [if_pos ha] at h ⊢
            left
            exact h
          · rw [if_neg ha] at h ⊢
            exact ih h

/-- Malformed bytes after a run of well-formed records make the replay
of that segment fail with the non-end-of-stream decode error. -/
theorem replayItems_junkBad (n : ℕ) (rest : SegFile) :
    ∀ (pre : SegFile) (fidx : ℕ) st pos, (∀ x ∈ pre, ∃ t, x = .tx t) →
      replayItems fidx st (pre ++ .junkBad n :: rest) pos = .error .bad := by
  intro pre
  induction pre with
  | nil => intro fidx st pos _; rfl
  | cons it pre' ih =>
      intro fidx st pos hall
      obtain ⟨t, ht⟩ := hall it (List.mem_cons_self _ _)
      subst ht
      simp only [List.cons_append, replayItems]
      exact ih fidx _ _ (fun x hx => hall x (List.mem_cons_of_mem _ hx))

/-! ### Claim theorems -/

/-- C1 (code bug, failing input): starting from a store opened over an
empty directory, the successful sequence `set "a" "1"; remove "a";
set "a" "2"` leaves the in-memory Index holding `"a" ↦ (0, 22)` with
StaleCount `{0 ↦ 1}`, yet replaying the resulting directory (re-opening
it) yields an empty Index — key `"a"` is lost — and StaleCount
`{0 ↦ 2}`: replay does **not** reproduce the in-memory Index and
StaleCount.  The cause: `remove` writes its tombstone to segment
`max+1` without registering that segment in `files`, so the following
`set` appends the newer `Set` to the lower segment 0, and replay
processes the tombstone of segment 1 after it. -/
theorem replay_not_deterministic :
    runOps init0 [.set "a" "1", .remove "a", .set "a" "2"] = .ok
      ⟨⟨[("a", (0, 22))], "d", [(0, 1)]⟩,
       [(0, [.tx (.Set "a" "1"), .tx (.Set "a" "2")]), (1, [.tx (.Remove "a")])]⟩ ∧
    KvStore_open "d"
        [(0, [.tx (.Set "a" "1"), .tx (.Set "a" "2")]), (1, [.tx (.Remove "a")])] =
      .ok ⟨[], "d", [(0, 2)]⟩ ∧
    mlookup "a" [("a", ((0 : ℕ), (22 : ℕ)))] = some (0, 22) ∧
    mlookup "a" ([] : List (String × (ℕ × ℕ))) = none ∧
    mlookup 0 [((0 : ℕ), (1 : ℕ))] = some 1 ∧
    mlookup 0 [((0 : ℕ), (2 : ℕ))] = some 2 :=
  ⟨rfl, rfl, rfl, rfl, rfl, rfl⟩

/-- C2 (counterexample): in the reachable state `sysA` (one key `"a"`
in segment 0, which is far below the rollover threshold), the
active-segment/rollover selection used by `set` picks segment 0, but
`remove "a"` appends its `Remove` record to a fresh segment 1, leaving
segment 0 untouched — so `remove` does not use `set`'s selection. -/
theorem remove_ignores_rollover_selection_cex :
    mlookup "a" sysA.store.storage = some (0, 0) ∧
    fileLen ((mlookup (setTargetIndex sysA.store.files sysA.disk) sysA.disk).getD []) < 1000 ∧
    setTargetIndex sysA.store.files sysA.disk = 0 ∧
    removeSys sysA "a" = .ok
      ⟨⟨[], "d", [(0, 1)]⟩, [(0, [.tx (.Set "a" "1")]), (1, [.tx (.Remove "a")])]⟩ ∧
    mlookup 1 [((0 : ℕ), [Item.tx (.Set "a" "1")]), (1, [Item.tx (.Remove "a")])] =
      some [.tx (.Remove "a")] ∧
    mlookup 0 [((0 : ℕ), [Item.tx (.Set "a" "1")]), (1, [Item.tx (.Remove "a")])] =
      some [.tx (.Set "a" "1")] :=
  ⟨rfl, by decide, rfl, rfl, rfl, rfl⟩

/-- C2 (amended): for every key present in the Index, `remove` appends
its `Remove` transaction to the end of segment
`nextFileIndex = (highest id tracked in StaleCount) + 1` (0 when
StaleCount is empty), independent of the byte-length/rollover selection
that `set` uses; it then bumps StaleCount for the key's previous
segment id and deletes the key from the Index. -/
theorem remove_appends_to_next_index (s : Sys) (k : String) (fi off : ℕ)
    (h : mlookup k s.store.storage = some (fi, off)) :
    removeSys s k = .ok
      ⟨⟨merase k s.store.storage, s.store.folderPath, bump fi s.store.files⟩,
       sinsert (nextFileIndex s.store.files)
         (((mlookup (nextFileIndex s.store.files) s.disk).getD []) ++
           [.tx (.Remove k)])
         s.disk⟩ :=
  removeSys_eq s k fi off h

/-- Witness for `remove_appends_to_next_index` at the concrete state
`sysA`. -/
theorem remove_appends_to_next_index_witness :
    removeSys sysA "a" = .ok
      ⟨⟨[], "d", [(0, 1)]⟩, [(0, [.tx (.Set "a" "1")]), (1, [.tx (.Remove "a")])]⟩ :=
  remove_appends_to_next_index sysA "a" 0 0 rfl

/-- C3 (confirmed): for every starting state, after `set k v` succeeds,
any successful run of further operations none of which touches `k`
leaves `get k` returning exactly `v`. -/
theorem set_then_get_returns_value (s : Sys) (k v : String) (ops : List Op) (s' : Sys)
    (hrun : runOps (setSys s k v) ops = .ok s')
    (hops : ∀ op ∈ ops, opKey op ≠ k) :
    KvStore_get s'.store s'.disk k = .ok (some v) :=
  indexReads_get (indexReads_runOps ops (setSys s k v) s' hrun hops
    (indexReads_setSys_self s k v))

/-- Witness for `set_then_get_returns_value`: set `"a"`, then set a
different key `"b"`, then read `"a"` back. -/
theorem set_then_get_returns_value_witness :
    runOps (setSys init0 "a" "1") [Op.set "b" "2"] = .ok
      ⟨⟨[("a", (0, 0)), ("b", (0, 22))], "d", [(0, 0)]⟩,
       [(0, [.tx (.Set "a" "1"), .tx (.Set "b" "2")])]⟩ ∧
    KvStore_get
      (⟨⟨[("a", (0, 0)), ("b", (0, 22))], "d", [(0, 0)]⟩,
        [(0, [.tx (.Set "a" "1"), .tx (.Set "b" "2")])]⟩ : Sys).store
      (⟨⟨[("a", (0, 0)), ("b", (0, 22))], "d", [(0, 0)]⟩,
        [(0, [.tx (.Set "a" "1"), .tx (.Set "b" "2")])]⟩ : Sys).disk
      "a" = .ok (some "1") :=
  ⟨rfl,
   set_then_get_returns_value init0 "a" "1" [Op.set "b" "2"]
     ⟨⟨[("a", (0, 0)), ("b", (0, 22))], "d", [(0, 0)]⟩,
      [(0, [.tx (.Set "a" "1"), .tx (.Set "b" "2")])]⟩
     rfl
     (by
       intro op hop
       rw [List.mem_singleton.mp hop]
       decide)⟩

/-- C4 (counterexample): opening a directory whose single segment 0 has
one `Set` record (nothing superseded) succeeds, but the returned
StaleCount is empty — it has **no** entry (in particular no 0-count
entry) for discovered segment 0. -/
theorem open_no_zero_staleCount_entry_cex :
    KvStore_open "d" [(0, [.tx (.Set "a" "1")])] = .ok ⟨[("a", (0, 0))], "d", []⟩ ∧
    mlookup 0 (⟨[("a", (0, 0))], "d", []⟩ : KvStoreM).files = none :=
  ⟨rfl, rfl⟩

/-- C4 (amended): after a successful `open`, every entry of the
returned StaleCount has count at least 1 — entries are created during
replay only when a transaction is superseded, so a segment with no
superseded transactions has no entry at all (rather than an entry with
count 0). -/
theorem open_staleCount_entries_positive (p : String) (d : Disk) (st : KvStoreM)
    (h : KvStore_open p d = .ok st) :
    ∀ i c, mlookup i st.files = some c → 1 ≤ c := by
  intro i c hc
  unfold KvStore_open at h
  cases hr : replayDisk ([], []) d with
  | error e => rw [hr] at h; exact absurd h (by simp)
  | ok st' =>
      rw [hr] at h
      obtain ⟨storage, files⟩ := st'
      injection h with h
      subst h
      refine posVals_replayDisk d ([], []) (storage, files) hr ?_ i c hc
      intro j cj hj
      exact absurd hj (by simp [mlookup])

/-- Witness for `open_staleCount_entries_positive`: a replay with one
superseded record yields the entry `0 ↦ 1`, whose count is ≥ 1. -/
theorem open_staleCount_entries_positive_witness :
    mlookup 0 (⟨[("a", (0, 22))], "d", [(0, 1)]⟩ : KvStoreM).files = some 1 ∧
    1 ≤ 1 :=
  ⟨rfl,
   open_staleCount_entries_positive "d" [(0, [.tx (.Set "a" "1"), .tx (.Set "a" "2")])]
     ⟨[("a", (0, 22))], "d", [(0, 1)]⟩ rfl 0 1 rfl⟩

/-- C5 (counterexample): in the reachable state `sysA`, `remove "a"`
appends to segment `nextFileIndex = 1`, yet after the successful
append segment 1 is absent from StaleCount (only the previous segment
0 was bumped) — the append target is **not** inserted with count 0. -/
theorem remove_target_absent_from_staleCount_cex :
    nextFileIndex sysA.store.files = 1 ∧
    removeSys sysA "a" = .ok
      ⟨⟨[], "d", [(0, 1)]⟩, [(0, [.tx (.Set "a" "1")]), (1, [.tx (.Remove "a")])]⟩ ∧
    mlookup 1 ([((0 : ℕ), (1 : ℕ))] : List (ℕ × ℕ)) = none :=
  ⟨rfl, rfl, rfl⟩

/-- C5 (amended): after a successful `set` the target segment id is
present in StaleCount (inserted with 0 if new); a successful `remove`
however only bumps the removed key's previous segment id — it never
ensures its own append target is present. -/
theorem set_append_tracked_in_staleCount (s : Sys) (k v : String) :
    (∃ c, mlookup (setTargetIndex s.store.files s.disk)
        (setSys s k v).store.files = some c) ∧
    (∀ (k' : String) (fi off : ℕ), mlookup k' s.store.storage = some (fi, off) →
      ∃ s', removeSys s k' = .ok s' ∧
        mlookup fi s'.store.files = some ((mlookup fi s.store.files).getD 0 + 1)) := by
  constructor
  · rw [setSys_eq]
    exact ⟨_, mlookup_ensure_self _ _⟩
  · intro k' fi off h
    exact ⟨_, removeSys_eq s k' fi off h, mlookup_bump_self fi _⟩

/-- Witness for `set_append_tracked_in_staleCount` at `sysA`. -/
theorem set_append_tracked_in_staleCount_witness :
    (∃ c, mlookup (setTargetIndex sysA.store.files sysA.disk)
        (setSys sysA "x" "y").store.files = some c) ∧
    (∃ s', removeSys sysA "a" = .ok s' ∧ mlookup 0 s'.store.files = some 1) :=
  ⟨(set_append_tracked_in_staleCount sysA "x" "y").1,
   (set_append_tracked_in_staleCount sysA "x" "y").2 "a" 0 0 rfl⟩

/-- C6 (counterexample): from an empty directory run
`set "a" "1"; remove "a"`.  The tombstone created segment 1 on disk,
but `files` tracks only segment 0, so the next `set` selects segment 0
as its target even though segment 1 exists — the append does not go to
the highest existing segment, and segment id 1 is no longer above every
existing id when it is next assigned. -/
theorem append_targets_non_highest_segment_cex :
    runOps init0 [.set "a" "1", .remove "a"] = .ok
      ⟨⟨[], "d", [(0, 1)]⟩, [(0, [.tx (.Set "a" "1")]), (1, [.tx (.Remove "a")])]⟩ ∧
    mlookup 1 (⟨⟨[], "d", [(0, 1)]⟩,
        [(0, [.tx (.Set "a" "1")]), (1, [.tx (.Remove "a")])]⟩ : Sys).disk =
      some [.tx (.Remove "a")] ∧
    setTargetIndex
      (⟨⟨[], "d", [(0, 1)]⟩,
        [(0, [.tx (.Set "a" "1")]), (1, [.tx (.Remove "a")])]⟩ : Sys).store.files
      (⟨⟨[], "d", [(0, 1)]⟩,
        [(0, [.tx (.Set "a" "1")]), (1, [.tx (.Remove "a")])]⟩ : Sys).disk = 0 ∧
    mlookup "b" (setSys
      (⟨⟨[], "d", [(0, 1)]⟩,
        [(0, [.tx (.Set "a" "1")]), (1, [.tx (.Remove "a")])]⟩ : Sys)
      "b" "2").store.storage = some (0, 22) ∧
    (0 : ℕ) < 1 :=
  ⟨rfl, rfl, rfl, rfl, by decide⟩

/-- C6 (amended): every append targets a segment id at least as large
as every id *tracked in the in-memory `files` map* — `set`'s target is
≥ every tracked id and `remove`'s target is strictly above every
tracked id — but not necessarily the highest segment existing in the
directory (segments created by `remove` are never tracked). -/
theorem append_target_ge_tracked (s : Sys) (i c : ℕ)
    (h : mlookup i s.store.files = some c) :
    i ≤ setTargetIndex s.store.files s.disk ∧ i < nextFileIndex s.store.files := by
  obtain ⟨M, hM, hle⟩ := keysMax?_bound h
  constructor
  · simp only [setTargetIndex, hM, Option.getD_some]
    split <;> omega
  · simp only [nextFileIndex, hM]
    omega

/-- Witness for `append_target_ge_tracked` at `sysA`. -/
theorem append_target_ge_tracked_witness :
    0 ≤ setTargetIndex sysA.store.files sysA.disk ∧
    0 < nextFileIndex sysA.store.files :=
  append_target_ge_tracked sysA 0 0 rfl

/-- C7 (counterexample): with an Index entry for `"a"` pointing at a
`Remove` record, `get "a"` panics (the `panic!` arm of `KvStore::get`)
instead of returning an `InternalInconsistency` error result — indeed
`CustomError` has no such variant at all. -/
theorem get_panics_on_indexed_remove_cex :
    KvStore_get ⟨[("a", (0, 0))], "d", []⟩ [(0, [.tx (.Remove "a")])] "a" =
      .panicked "Invalid state: Remove transaction found for a valid key" :=
  rfl

/-- C7 (amended): for every key whose Index entry points at an offset
that decodes to a `Remove` record, `get` terminates with the
uncatchable panic `"Invalid state: Remove transaction found for a valid
key"` rather than reporting an error result to the caller. -/
theorem get_panics_on_indexed_remove (s : KvStoreM) (d : Disk) (k k' : String)
    (fi off : ℕ) (f : SegFile)
    (h1 : mlookup k s.storage = some (fi, off))
    (h2 : mlookup fi d = some f)
    (h3 : decodeAt f off = .ok (.Remove k')) :
    KvStore_get s d k = .panicked "Invalid state: Remove transaction found for a valid key" := by
  simp only [KvStore_get, h1, h2, h3]

/-- Witness for `get_panics_on_indexed_remove` at a concrete
inconsistent state. -/
theorem get_panics_on_indexed_remove_witness :
    KvStore_get ⟨[("z", (3, 22))], "p", []⟩
      [(3, [.tx (.Set "q" "1"), .tx (.Remove "w")])] "z" =
      .panicked "Invalid state: Remove transaction found for a valid key" :=
  get_panics_on_indexed_remove ⟨[("z", (3, 22))], "p", []⟩
    [(3, [.tx (.Set "q" "1"), .tx (.Remove "w")])] "z" "w" 3 22
    [.tx (.Set "q" "1"), .tx (.Remove "w")] rfl rfl rfl

/-- Inversion of a successful read: `get` returning `Ok(Some(v))`
means the key's Index entry resolves on disk to a `Set` record carrying
`v`. -/
theorem get_ok_some_inv {s : KvStoreM} {d : Disk} {k v : String}
    (h : KvStore_get s d k = .ok (some v)) :
    ∃ fi off f k', mlookup k s.storage = some (fi, off) ∧
      mlookup fi d = some f ∧ decodeAt f off = .ok (.Set k' v) := by
  simp only [KvStore_get] at h
  split at h
  · split at h
    · exact absurd h (by simp)
    · split at h
      · rename_i x1 fi off heq1 x2 f heq2 x3 key value heq3
        simp only [Outcome.ok.injEq, Option.some.injEq] at h
        subst h
        exact ⟨fi, off, f, key, heq1, heq2, heq3⟩
      · exact absurd h (by simp)
      · exact absurd h (by simp)
  · exact absurd h (by simp)

/-- C8 (confirmed): (1) appending a truncated partial record to the
last segment leaves `open` entirely unchanged — no `CorruptLog`-style
error, the partial record is silently dropped; (2) every key readable
through the store built by `open` is still readable, with the same
value, against the truncated directory; (3) a decode failure that is
not an end-of-stream truncation (malformed bytes after well-formed
records) makes `open` abort with the propagated decode (`Bincode`)
error. -/
theorem open_truncation_tolerated_malformed_aborts :
    (∀ (p : String) (d : Disk) (n : ℕ),
        KvStore_open p (appendTailLast d (.junkEof n)) = KvStore_open p d) ∧
    (∀ (p : String) (d : Disk) (n : ℕ) (st : KvStoreM) (k v : String),
        KvStore_open p d = .ok st →
        KvStore_get st d k = .ok (some v) →
        KvStore_get st (appendTailLast d (.junkEof n)) k = .ok (some v)) ∧
    (∀ (p : String) (i n : ℕ) (pre rest : SegFile) (drest : Disk),
        (∀ x ∈ pre, ∃ t, x = .tx t) →
        KvStore_open p ((i, pre ++ .junkBad n :: rest) :: drest) =
          .error (.Bincode .bad)) := by
  refine ⟨?_, ?_, ?_⟩
  · intro p d n
    unfold KvStore_open
    rw [replayDisk_appendTailLast_junkEof]
  · intro p d n st k v _hopen hget
    obtain ⟨fi, off, f, key, h1, h2, h3⟩ := get_ok_some_inv hget
    rcases mlookup_appendTailLast (.junkEof n) h2 with h' | h'
    · simp only [KvStore_get, h1, h', h3]
    · simp only [KvStore_get, h1, h', decodeAt_append_of_ok _ h3]
  · intro p i n pre rest drest hall
    simp only [KvStore_open, replayDisk, replayItems_junkBad n rest pre i ([], []) 0 hall]

/-- Witness for `open_truncation_tolerated_malformed_aborts`: one
committed record plus a 3-byte truncated tail replays exactly like the
clean log and the committed key stays readable; malformed bytes after
that record abort `open`. -/
theorem open_truncation_tolerated_malformed_aborts_witness :
    KvStore_open "d" (appendTailLast [(0, [.tx (.Set "a" "1")])] (.junkEof 2)) =
      KvStore_open "d" [(0, [.tx (.Set "a" "1")])] ∧
    KvStore_get ⟨[("a", (0, 0))], "d", []⟩
      (appendTailLast [(0, [.tx (.Set "a" "1")])] (.junkEof 2)) "a" = .ok (some "1") ∧
    KvStore_open "d" [(0, [.tx (.Set "a" "1"), .junkBad 0])] = .error (.Bincode .bad) :=
  ⟨open_truncation_tolerated_malformed_aborts.1 "d" [(0, [.tx (.Set "a" "1")])] 2,
   open_truncation_tolerated_malformed_aborts.2.1 "d" [(0, [.tx (.Set "a" "1")])] 2
     ⟨[("a", (0, 0))], "d", []⟩ "a" "1" rfl rfl,
   open_truncation_tolerated_malformed_aborts.2.2 "d" 0 0 [.tx (.Set "a" "1")] [] []
     (by
       intro x hx
       rw [List.mem_singleton.mp hx]
       exact ⟨_, rfl⟩)⟩

/-- C9 (confirmed): `remove` on an absent key fails with `KeyNotFound`
while `get` on that key succeeds with the normal "absent" result
`Ok(None)`; and for a present key (in a duplicate-free Index, the
`BTreeMap` representation invariant), a successful `remove` makes
`get` return "absent" and a second `remove` fail with `KeyNotFound`. -/
theorem remove_get_keynotfound_protocol (s : Sys) (k : String) :
    (mlookup k s.store.storage = none →
      removeSys s k = .error .KeyNotFound ∧
        KvStore_get s.store s.disk k = .ok none) ∧
    (∀ fi off, mlookup k s.store.storage = some (fi, off) →
      (s.store.storage.map Prod.fst).Nodup →
      ∃ s', removeSys s k = .ok s' ∧
        KvStore_get s'.store s'.disk k = .ok none ∧
        removeSys s' k = .error .KeyNotFound) := by
  constructor
  · intro h
    exact ⟨removeSys_none s k h, by simp only [KvStore_get, h]⟩
  · intro fi off h hnd
    refine ⟨_, removeSys_eq s k fi off h, ?_, ?_⟩
    · simp only [KvStore_get, mlookup_merase_self k _ hnd]
    · exact removeSys_none _ k (mlookup_merase_self k _ hnd)

/-- Witness for `remove_get_keynotfound_protocol` at `sysA`: key `"b"`
is absent, key `"a"` is present. -/
theorem remove_get_keynotfound_protocol_witness :
    (removeSys sysA "b" = .error .KeyNotFound ∧
      KvStore_get sysA.store sysA.disk "b" = .ok none) ∧
    (∃ s', removeSys sysA "a" = .ok s' ∧
      KvStore_get s'.store s'.disk "a" = .ok none ∧
      removeSys s' "a" = .error .KeyNotFound) :=
  ⟨(remove_get_keynotfound_protocol sysA "b").1 rfl,
   (remove_get_keynotfound_protocol sysA "a").2 0 0 rfl (by decide)⟩

/-- C10 (confirmed): `get` takes the store by shared reference
(`&self`) and therefore leaves the whole state — Index, StaleCount,
directory path and directory contents — unchanged, whatever the key
and whatever the outcome. -/
theorem get_leaves_state_unchanged (s : Sys) (k : String) :
    (getSys s k).2.store.storage = s.store.storage ∧
    (getSys s k).2.store.files = s.store.files ∧
    (getSys s k).2.store.folderPath = s.store.folderPath ∧
    (getSys s k).2.disk = s.disk :=
  ⟨rfl, rfl, rfl, rfl⟩
